import Mathlib

/-!
# BOM Reconciler — verification development

A shallow embedding of the core transform of `TransmittalListMakerRev1.py`
(the "BOM Reconciler"): directory listing, part-number normalization,
keep-set construction with the `VG-` prefix-toggle rule, the missing-parts
report, deduplication, filtering, column projection, and the end-to-end
orchestration `filter_bom_with_pdf_list`.

Modelling conventions:
* a spreadsheet cell that may be `NaN`/missing is an `Option String`
  (`none` = `pd.isna`, `some s` = the cell rendered by `str(...)`);
* Python strings are `String`/`List Char`; Python `str.strip()` is
  `pyStrip` over the Unicode whitespace class `isPySpace`;
* the filesystem boundary is explicit data: a directory listing is a
  `List DirEntry` (name plus the `os.path.isfile` verdict), the loaded
  spreadsheet is a `List BomRow`;
* the one exception reachable in the pure part of the orchestration is the
  `ZeroDivisionError` of the summary (`filtered/original*100` at
  `original = 0`); it is modelled by `percentage = none` together with the
  top-level handler's `(False, [])` result.  File writes are modelled by
  the `outputWritten` flag and the `output` field (the rows handed to
  `to_excel`); the transient JSON listing artifact is not modelled.
-/

namespace BomReconciler

/-! ## Python string primitives -/

/-- The character class of Python `str.isspace()` / the default `str.strip()`:
ASCII whitespace, the C1 separators, and the Unicode space separators. -/
def isPySpace (c : Char) : Bool :=
  c == ' ' || c == '\t' || c == '\n' || c == '\r' || c == '\x0b' || c == '\x0c' ||
    (28 ≤ c.toNat && c.toNat ≤ 31) || c.toNat == 133 || c.toNat == 160 ||
    c.toNat == 5760 || (8192 ≤ c.toNat && c.toNat ≤ 8202) ||
    c.toNat == 8232 || c.toNat == 8233 || c.toNat == 8239 ||
    c.toNat == 8287 || c.toNat == 12288

/-- Python `s.strip()`: drop leading and trailing whitespace. -/
def pyStrip (l : List Char) : List Char :=
  ((l.dropWhile isPySpace).reverse.dropWhile isPySpace).reverse

/-- Python `s.replace('\r', '').replace('\n', '')`: remove every carriage
return and line feed. -/
def removeCRLF (l : List Char) : List Char :=
  l.filter fun c => !(c == '\r' || c == '\n')

/-- `normalize_part_number` (source lines 93–96):
`NaN` ↦ `""`; otherwise remove all `\r`/`\n` and strip surrounding
whitespace from `str(part_no)`. -/
def normalize_part_number : Option String → String
  | none => ""
  | some s => String.mk (pyStrip (removeCRLF s.data))

/-! ## Data model -/

/-- A loaded spreadsheet row: the raw `PART No.` cell (`none` = missing/NaN),
the `DESCRIPTION` cell, and the remaining columns (dropped by the final
projection). -/
structure BomRow where
  partNo : Option String
  description : String
  extra : List String
  deriving DecidableEq, Repr

/-- The derived `Normalized_Part_No` column (source line 99). -/
def rowKey (r : BomRow) : String := normalize_part_number r.partNo

/-- A directory entry as seen by `os.listdir`: its basename and the verdict
of `os.path.isfile` on it. -/
structure DirEntry where
  name : String
  isFile : Bool
  deriving DecidableEq, Repr

/-- Python `item.lower().endswith('.pdf')` (source line 23); `Char.toLower`
models `str.lower` (they agree on ASCII, which decides the suffix test). -/
def hasPdfSuffix (l : List Char) : Bool :=
  ['.', 'p', 'd', 'f'].isSuffixOf (l.map Char.toLower)

/-- The root part of `os.path.splitext` on a basename (no path separators):
split at the last dot, provided some character before it is not a dot
(CPython `genericpath._splitext`); otherwise the name is returned whole. -/
def py_splitext_root (l : List Char) : List Char :=
  if '.' ∈ l then
    let dotIndex := l.length - 1 - l.reverse.findIdx (· == '.')
    if (l.take dotIndex).any (fun c => !(c == '.')) then l.take dotIndex else l
  else l

/-- `get_pdf_file_list` (source lines 17–31) on an explicit listing:
keep the regular files whose name case-insensitively ends in `.pdf`, and
emit `os.path.splitext(item)[0]` for each, in listing order. -/
def get_pdf_file_list (entries : List DirEntry) : List String :=
  (entries.filter fun e => e.isFile && hasPdfSuffix e.name.data).map
    fun e => String.mk (py_splitext_root e.name.data)

/-! ## Keep-set, missing report, dedupe, filter -/

/-- Python `s.startswith('VG-')`: the first three characters are `V`, `G`,
`-`.  (The library `String.startsWith` is byte-level and not
kernel-reducible; on this fixed pattern it coincides with this test.) -/
def startsWithVG (s : String) : Bool :=
  s.data.take 3 == ['V', 'G', '-']

/-- The prefix-toggled variant added next to each identifier
(source lines 85–90): strip `VG-` when present, else prepend it. -/
def toggle (part : String) : String :=
  if startsWithVG part then part.drop 3 else "VG-" ++ part

/-- `all_parts_to_keep` (source lines 82–90): every identifier together
with its toggled variant. -/
def build_keep_set (pdf_files : List String) : Finset String :=
  pdf_files.foldl (fun s part => insert (toggle part) (insert part s)) ∅

/-- `missing_parts` (source lines 105–113), including the inverted guard of
the source: the third conjunct tests `not part.startswith('VG-') or
'VG-'+part not in excel_part_numbers`, so the `VG-`-prefixed form is never
consulted for an unprefixed identifier. -/
def compute_missing (pdf_files : List String) (excel_part_numbers : Finset String) :
    List String :=
  pdf_files.filter fun part =>
    !decide (part ∈ excel_part_numbers) &&
      (!(startsWithVG part) || !decide (part.drop 3 ∈ excel_part_numbers)) &&
      (!(startsWithVG part) || !decide (("VG-" ++ part) ∈ excel_part_numbers))

/-- The missing rule as the specification words it (§4.1 "compute missing"),
for comparison with `compute_missing`: an identifier is missing when
neither itself, nor (if prefixed) its stripped form, nor (if unprefixed)
its prefixed form, is a BOM key. -/
def compute_missing_spec (pdf_files : List String) (excel_part_numbers : Finset String) :
    List String :=
  pdf_files.filter fun part =>
    !decide (part ∈ excel_part_numbers) &&
      (!(startsWithVG part) || !decide (part.drop 3 ∈ excel_part_numbers)) &&
      (startsWithVG part || !decide (("VG-" ++ part) ∈ excel_part_numbers))

/-- `df.drop_duplicates(subset=['Normalized_Part_No'], keep='first')`
(source line 117): keep the first row per normalized key, in order. -/
def dropDuplicatesAux (seen : List String) : List BomRow → List BomRow
  | [] => []
  | r :: rs =>
    if seen.contains (rowKey r) then dropDuplicatesAux seen rs
    else r :: dropDuplicatesAux (rowKey r :: seen) rs

/-- Deduplication by normalized part number, first occurrence kept. -/
def drop_duplicates (rows : List BomRow) : List BomRow :=
  dropDuplicatesAux [] rows

/-- `should_keep_row` (source lines 122–137): a nonempty normalized key
survives when some keep-set entry equals it directly, or equals its
`VG-`-stripped form when it carries the prefix. -/
def should_keep_row (all_parts_to_keep : Finset String) (row : BomRow) : Bool :=
  if rowKey row = "" then false
  else
    decide (∃ keep_part ∈ all_parts_to_keep,
      rowKey row = keep_part ∨
        (startsWithVG (rowKey row) = true ∧ (rowKey row).drop 3 = keep_part))

/-- The row filter of source line 140. -/
def filterRows (keep : Finset String) (rows : List BomRow) : List BomRow :=
  rows.filter (should_keep_row keep)

/-! ## Orchestration -/

/-- Observable outcome of one run of `filter_bom_with_pdf_list`:
the returned pair `(success, missing)`, whether the `FILTERED_` spreadsheet
was written (`outputWritten`) and with which rows (`output`, the projection
to `PART No.`/`DESCRIPTION`), and the summary percentage (`none` when the
summary division raised `ZeroDivisionError`). -/
structure RunResult where
  success : Bool
  missing : List String
  outputWritten : Bool
  output : List (Option String × String)
  percentage : Option ℚ
  deriving DecidableEq, Repr

/-- `filter_bom_with_pdf_list` (source lines 33–181) on the loaded data:
fail fast on an empty identifier list; otherwise build the keep-set, the
normalized-key set and the missing report, deduplicate, filter, project,
write the output, then print the summary — whose division raises at
`original_row_count = 0`, caught by the top-level handler as `(False, [])`. -/
def filter_bom_with_pdf_list (pdf_files : List String) (rows : List BomRow) :
    RunResult :=
  if pdf_files.isEmpty then
    { success := false, missing := [], outputWritten := false, output := [],
      percentage := none }
  else
    let original_row_count := rows.length
    let all_parts_to_keep := build_keep_set pdf_files
    let excel_part_numbers := (rows.map rowKey).toFinset
    let missing_parts := compute_missing pdf_files excel_part_numbers
    let df_no_dupes := drop_duplicates rows
    let filtered_df := filterRows all_parts_to_keep df_no_dupes
    let simplified := filtered_df.map fun r => (r.partNo, r.description)
    if original_row_count = 0 then
      { success := false, missing := [], outputWritten := true,
        output := simplified, percentage := none }
    else
      { success := true, missing := missing_parts, outputWritten := true,
        output := simplified,
        percentage :=
          some ((filtered_df.length : ℚ) / (original_row_count : ℚ) * 100) }

/-! ## String lemmas -/

theorem dropWhile_append_single {α : Type*} {p : α → Bool} {a : α} (h : p a = false)
    (xs : List α) : List.dropWhile p (xs ++ [a]) = List.dropWhile p xs ++ [a] := by
  induction xs with
  | nil => simp [List.dropWhile_cons, h]
  | cons x xs ih =>
    by_cases hx : p x = true
    · simp [List.dropWhile_cons, hx, ih]
    · simp [List.dropWhile_cons, hx]

theorem dropWhile_self {α : Type*} {p : α → Bool} (l : List α) :
    List.dropWhile p (List.dropWhile p l) = List.dropWhile p l := by
  induction l with
  | nil => rfl
  | cons a l ih =>
    by_cases ha : p a = true
    · simp [List.dropWhile_cons, ha, ih]
    · simp [List.dropWhile_cons, ha]

theorem dropWhile_head_false {α : Type*} {p : α → Bool} :
    ∀ {l t : List α} {a : α}, List.dropWhile p l = a :: t → p a = false := by
  intro l
  induction l with
  | nil => intro t a h; simp at h
  | cons x xs ih =>
    intro t a h
    rw [List.dropWhile_cons] at h
    by_cases hx : p x = true
    · rw [if_pos hx] at h
      exact ih h
    · rw [if_neg hx] at h
      obtain ⟨rfl, rfl⟩ := List.cons.injEq .. ▸ h
      exact Bool.eq_false_iff.mpr hx

theorem pyStrip_dropWhile (l : List Char) :
    List.dropWhile isPySpace (pyStrip l) = pyStrip l := by
  unfold pyStrip
  cases hu : List.dropWhile isPySpace l with
  | nil => simp
  | cons a t =>
    have ha : isPySpace a = false := dropWhile_head_false hu
    rw [List.reverse_cons, dropWhile_append_single ha, List.reverse_append]
    simp [List.dropWhile_cons, ha]

theorem pyStrip_reverse_dropWhile (l : List Char) :
    List.dropWhile isPySpace (pyStrip l).reverse = (pyStrip l).reverse := by
  unfold pyStrip
  rw [List.reverse_reverse]
  exact dropWhile_self _

theorem pyStrip_idem (l : List Char) : pyStrip (pyStrip l) = pyStrip l := by
  conv_lhs => rw [pyStrip, pyStrip_dropWhile, pyStrip_reverse_dropWhile,
    List.reverse_reverse]

theorem mem_pyStrip {c : Char} {l : List Char} (h : c ∈ pyStrip l) : c ∈ l := by
  unfold pyStrip at h
  rw [List.mem_reverse] at h
  have h1 := (List.dropWhile_sublist isPySpace).mem h
  rw [List.mem_reverse] at h1
  exact (List.dropWhile_sublist isPySpace).mem h1

theorem removeCRLF_pyStrip_removeCRLF (l : List Char) :
    removeCRLF (pyStrip (removeCRLF l)) = pyStrip (removeCRLF l) := by
  unfold removeCRLF
  rw [List.filter_eq_self]
  intro c hc
  exact (List.mem_filter.mp (mem_pyStrip hc)).2

/-- **C7.** `normalize_part_number` maps `NaN`/missing to the empty string;
on a present value every character of the result comes from the input and
is neither `\r` nor `\n`; the result has no leading and no trailing
Python-whitespace; and normalization is idempotent. -/
theorem C7_normalize_idempotent :
    normalize_part_number none = "" ∧
    (∀ x, normalize_part_number (some (normalize_part_number x)) =
      normalize_part_number x) ∧
    (∀ s : String, ∀ c ∈ (normalize_part_number (some s)).data,
      c ∈ s.data ∧ c ≠ '\r' ∧ c ≠ '\n') ∧
    (∀ s : String, (normalize_part_number (some s)).data.dropWhile isPySpace =
      (normalize_part_number (some s)).data) ∧
    (∀ s : String, (normalize_part_number (some s)).data.reverse.dropWhile isPySpace =
      (normalize_part_number (some s)).data.reverse) := by
  refine ⟨rfl, ?_, ?_, ?_, ?_⟩
  · intro x
    cases x with
    | none => rfl
    | some s =>
      show String.mk (pyStrip (removeCRLF (pyStrip (removeCRLF s.data)))) = _
      rw [removeCRLF_pyStrip_removeCRLF, pyStrip_idem]
      rfl
  · intro s c hc
    have hc' : c ∈ removeCRLF s.data := mem_pyStrip hc
    have h1 : c ∈ s.data := List.mem_of_mem_filter hc'
    have h2 := List.of_mem_filter hc'
    simp only [Bool.not_eq_true', Bool.or_eq_false_iff, beq_eq_false_iff_ne] at h2
    exact ⟨h1, h2.1, h2.2⟩
  · intro s
    exact pyStrip_dropWhile _
  · intro s
    exact pyStrip_reverse_dropWhile _

/-- Witness for C7 at a concrete cell: the character `A` of
`normalize_part_number (some " A\r B \n")` comes from the raw cell and is
not a line break. -/
theorem C7_normalize_idempotent_witness :
    'A' ∈ " A\r B \n".data ∧ 'A' ≠ '\r' ∧ 'A' ≠ '\n' :=
  C7_normalize_idempotent.2.2.1 " A\r B \n" 'A' (by decide)

/-! ## Deduplication lemmas -/

theorem dropDuplicatesAux_sublist (seen : List String) (rows : List BomRow) :
    (dropDuplicatesAux seen rows).Sublist rows := by
  induction rows generalizing seen with
  | nil => simp [dropDuplicatesAux]
  | cons r rs ih =>
    rw [dropDuplicatesAux]
    by_cases h : seen.contains (rowKey r) = true
    · rw [if_pos h]
      exact (ih seen).cons r
    · rw [if_neg h]
      exact (ih (rowKey r :: seen)).cons₂ r

theorem dropDuplicatesAux_not_seen {seen : List String} {rows : List BomRow}
    {r : BomRow} (h : r ∈ dropDuplicatesAux seen rows) :
    seen.contains (rowKey r) = false := by
  induction rows generalizing seen with
  | nil => simp [dropDuplicatesAux] at h
  | cons x rs ih =>
    rw [dropDuplicatesAux] at h
    by_cases hx : seen.contains (rowKey x) = true
    · rw [if_pos hx] at h
      exact ih h
    · rw [if_neg hx] at h
      rcases List.mem_cons.mp h with rfl | h'
      · exact Bool.eq_false_iff.mpr hx
      · have := ih h'
        simp only [List.contains_cons, Bool.or_eq_false_iff] at this
        exact this.2

theorem dropDuplicatesAux_first {seen : List String} {rows : List BomRow}
    {r : BomRow} (h : r ∈ dropDuplicatesAux seen rows) :
    ∃ l₁ l₂, rows = l₁ ++ r :: l₂ ∧ ∀ r' ∈ l₁, rowKey r' ≠ rowKey r := by
  induction rows generalizing seen with
  | nil => simp [dropDuplicatesAux] at h
  | cons x rs ih =>
    rw [dropDuplicatesAux] at h
    by_cases hx : seen.contains (rowKey x) = true
    · rw [if_pos hx] at h
      obtain ⟨l₁, l₂, rfl, hfst⟩ := ih h
      have hr : seen.contains (rowKey r) = false := dropDuplicatesAux_not_seen h
      refine ⟨x :: l₁, l₂, rfl, ?_⟩
      intro r' hr'
      rcases List.mem_cons.mp hr' with rfl | h'
      · intro hkey
        rw [hkey] at hx
        rw [hx] at hr
        exact Bool.true_eq_false ▸ hr
      · exact hfst r' h'
    · rw [if_neg hx] at h
      rcases List.mem_cons.mp h with rfl | h'
      · exact ⟨[], rs, rfl, by simp⟩
      · obtain ⟨l₁, l₂, rfl, hfst⟩ := ih h'
        have hr : (rowKey x :: seen).contains (rowKey r) = false :=
          dropDuplicatesAux_not_seen h'
        simp only [List.contains_cons, Bool.or_eq_false_iff, beq_eq_false_iff_ne] at hr
        refine ⟨x :: l₁, l₂, rfl, ?_⟩
        intro r' hr'
        rcases List.mem_cons.mp hr' with rfl | h''
        · exact fun hkey => hr.1 hkey.symm
        · exact hfst r' h''

theorem dropDuplicatesAux_covers {seen : List String} {rows : List BomRow}
    {r : BomRow} (h : r ∈ rows) :
    seen.contains (rowKey r) = true ∨
      rowKey r ∈ (dropDuplicatesAux seen rows).map rowKey := by
  induction rows generalizing seen with
  | nil => simp at h
  | cons x rs ih =>
    rw [dropDuplicatesAux]
    by_cases hx : seen.contains (rowKey x) = true
    · rw [if_pos hx]
      rcases List.mem_cons.mp h with rfl | h'
      · exact Or.inl hx
      · exact ih h'
    · rw [if_neg hx]
      rcases List.mem_cons.mp h with rfl | h'
      · exact Or.inr (by simp)
      · rcases @ih (rowKey x :: seen) h' with hmem | hmem
        · simp only [List.contains_cons, Bool.or_eq_true] at hmem
          rcases hmem with heq | hseen
          · exact Or.inr (by simp [(beq_iff_eq ..).mp heq])
          · exact Or.inl hseen
        · exact Or.inr (by simp [hmem])

theorem dropDuplicatesAux_keys_nodup (seen : List String) (rows : List BomRow) :
    ((dropDuplicatesAux seen rows).map rowKey).Nodup := by
  induction rows generalizing seen with
  | nil => simp [dropDuplicatesAux]
  | cons x rs ih =>
    rw [dropDuplicatesAux]
    by_cases hx : seen.contains (rowKey x) = true
    · rw [if_pos hx]
      exact ih seen
    · rw [if_neg hx]
      rw [List.map_cons, List.nodup_cons]
      refine ⟨?_, ih (rowKey x :: seen)⟩
      intro hmem
      obtain ⟨r, hr, hkey⟩ := List.mem_map.mp hmem
      have := dropDuplicatesAux_not_seen hr
      simp only [List.contains_cons, Bool.or_eq_false_iff, beq_eq_false_iff_ne] at this
      exact this.1 hkey

/-- **C6.** Deduplication keeps the first-encountered row per normalized key
(the empty key included): the output is a subsequence of the input (hence
order-preserving and no longer than the input), every input key is still
represented, every surviving row is the first of its key, and no two
surviving rows share a non-empty normalized key. -/
theorem C6_deduplicate_first_per_key :
    ∀ rows : List BomRow,
      (drop_duplicates rows).Sublist rows ∧
      (drop_duplicates rows).length ≤ rows.length ∧
      (∀ r ∈ rows, rowKey r ∈ (drop_duplicates rows).map rowKey) ∧
      (∀ r ∈ drop_duplicates rows,
        ∃ l₁ l₂, rows = l₁ ++ r :: l₂ ∧ ∀ r' ∈ l₁, rowKey r' ≠ rowKey r) ∧
      (drop_duplicates rows).Pairwise
        (fun a b => rowKey a ≠ "" → rowKey a ≠ rowKey b) := by
  intro rows
  refine ⟨dropDuplicatesAux_sublist [] rows,
    (dropDuplicatesAux_sublist [] rows).length_le, ?_, ?_, ?_⟩
  · intro r hr
    rcases @dropDuplicatesAux_covers [] rows r hr with hmem | hmem
    · simp at hmem
    · exact hmem
  · intro r hr
    exact dropDuplicatesAux_first hr
  · have hnodup := dropDuplicatesAux_keys_nodup [] rows
    rw [List.Nodup, List.pairwise_map] at hnodup
    rw [drop_duplicates]
    refine hnodup.imp ?_
    intro a b h _
    exact h

/-- Witness for C6: in a two-row spreadsheet whose rows share the key `A`,
the first row's key is represented in the deduplicated output. -/
theorem C6_deduplicate_first_per_key_witness :
    rowKey ⟨some "A", "1", []⟩ ∈
      (drop_duplicates [⟨some "A", "1", []⟩, ⟨some "A", "2", []⟩]).map rowKey :=
  (C6_deduplicate_first_per_key [⟨some "A", "1", []⟩, ⟨some "A", "2", []⟩]).2.2.1
    ⟨some "A", "1", []⟩ (by simp)

/-! ## Keep-set lemmas -/

theorem mem_build_keep_aux (ids : List String) :
    ∀ (s : Finset String) (x : String),
      x ∈ ids.foldl (fun s part => insert (toggle part) (insert part s)) s ↔
        x ∈ s ∨ ∃ p ∈ ids, x = p ∨ x = toggle p := by
  induction ids with
  | nil => intro s x; simp
  | cons a t ih =>
    intro s x
    rw [List.foldl_cons, ih]
    simp only [Finset.mem_insert, List.mem_cons]
    constructor
    · rintro ((h | h | h) | ⟨p, hp, hx⟩)
      · exact Or.inr ⟨a, Or.inl rfl, Or.inr h⟩
      · exact Or.inr ⟨a, Or.inl rfl, Or.inl h⟩
      · exact Or.inl h
      · exact Or.inr ⟨p, Or.inr hp, hx⟩
    · rintro (h | ⟨p, rfl | hp, hx⟩)
      · exact Or.inl (Or.inr (Or.inr h))
      · rcases hx with h | h
        · exact Or.inl (Or.inr (Or.inl h))
        · exact Or.inl (Or.inl h)
      · exact Or.inr ⟨p, hp, hx⟩

theorem card_build_keep_aux (ids : List String) :
    ∀ s : Finset String,
      (ids.foldl (fun s part => insert (toggle part) (insert part s)) s).card ≤
        s.card + 2 * ids.length := by
  induction ids with
  | nil => intro s; simp
  | cons a t ih =>
    intro s
    rw [List.foldl_cons, List.length_cons]
    have h0 := ih (insert (toggle a) (insert a s))
    have h1 := Finset.card_insert_le (toggle a) (insert a s)
    have h2 := Finset.card_insert_le a s
    omega

/-- **C5.** `build_keep_set` puts every identifier into the keep-set together
with its toggled form (`VG-`-stripped when prefixed, `VG-`-prefixed
otherwise), and the keep-set's size lies between the number of distinct
identifiers and twice the number of identifiers. -/
theorem C5_build_keep_set_toggle :
    ∀ ids : List String,
      (∀ x ∈ ids, x ∈ build_keep_set ids ∧ toggle x ∈ build_keep_set ids) ∧
      ids.toFinset.card ≤ (build_keep_set ids).card ∧
      (build_keep_set ids).card ≤ 2 * ids.length := by
  intro ids
  refine ⟨?_, ?_, ?_⟩
  · intro x hx
    exact ⟨(mem_build_keep_aux ids ∅ x).mpr (Or.inr ⟨x, hx, Or.inl rfl⟩),
      (mem_build_keep_aux ids ∅ (toggle x)).mpr (Or.inr ⟨x, hx, Or.inr rfl⟩)⟩
  · apply Finset.card_le_card
    intro x hx
    rw [List.mem_toFinset] at hx
    exact (mem_build_keep_aux ids ∅ x).mpr (Or.inr ⟨x, hx, Or.inl rfl⟩)
  · simpa using card_build_keep_aux ids ∅

/-- Witness for C5: both `VG-100` and its toggled form are in the keep-set
built from the listing `VG-100`, `200`. -/
theorem C5_build_keep_set_toggle_witness :
    "VG-100" ∈ build_keep_set ["VG-100", "200"] ∧
      toggle "VG-100" ∈ build_keep_set ["VG-100", "200"] :=
  (C5_build_keep_set_toggle ["VG-100", "200"]).1 "VG-100" (by simp)

/-! ## Filter lemmas -/

theorem should_keep_row_iff (keep : Finset String) (r : BomRow) :
    should_keep_row keep r = true ↔
      rowKey r ≠ "" ∧ (rowKey r ∈ keep ∨
        (startsWithVG (rowKey r) = true ∧ (rowKey r).drop 3 ∈ keep)) := by
  unfold should_keep_row
  by_cases h : rowKey r = ""
  · rw [if_pos h]
    simp [h]
  · rw [if_neg h, decide_eq_true_iff]
    constructor
    · rintro ⟨kp, hkp, heq | ⟨hsw, hdrop⟩⟩
      · rw [← heq] at hkp
        exact ⟨h, Or.inl hkp⟩
      · rw [← hdrop] at hkp
        exact ⟨h, Or.inr ⟨hsw, hkp⟩⟩
    · rintro ⟨-, hmem | ⟨hsw, hmem⟩⟩
      · exact ⟨rowKey r, hmem, Or.inl rfl⟩
      · exact ⟨(rowKey r).drop 3, hmem, Or.inr ⟨hsw, rfl⟩⟩

/-- **C4.** A row survives `should_keep_row` filtering exactly when its
normalized key is non-empty and either the key itself or — when the key
carries the `VG-` prefix — its stripped form is in the keep-set; the
filtered output is a subsequence of the input. -/
theorem C4_filter_membership :
    ∀ (rows : List BomRow) (keep : Finset String),
      (filterRows keep rows).Sublist rows ∧
      ∀ r : BomRow,
        r ∈ filterRows keep rows ↔
          r ∈ rows ∧ rowKey r ≠ "" ∧
            (rowKey r ∈ keep ∨
              (startsWithVG (rowKey r) = true ∧ (rowKey r).drop 3 ∈ keep)) := by
  intro rows keep
  refine ⟨List.filter_sublist rows, ?_⟩
  intro r
  rw [filterRows, List.mem_filter, should_keep_row_iff]

/-- Witness for C4: the row keyed `VG-200` survives against the keep-set
`{200}` through the stripped-form branch. -/
theorem C4_filter_membership_witness :
    (⟨some "VG-200", "d", []⟩ : BomRow) ∈
        filterRows ({"200"} : Finset String) [⟨some "VG-200", "d", []⟩] ↔
      (⟨some "VG-200", "d", []⟩ : BomRow) ∈
          ([⟨some "VG-200", "d", []⟩] : List BomRow) ∧
        rowKey ⟨some "VG-200", "d", []⟩ ≠ "" ∧
        (rowKey ⟨some "VG-200", "d", []⟩ ∈ ({"200"} : Finset String) ∨
          (startsWithVG (rowKey ⟨some "VG-200", "d", []⟩) = true ∧
            (rowKey ⟨some "VG-200", "d", []⟩).drop 3 ∈ ({"200"} : Finset String))) :=
  (C4_filter_membership [⟨some "VG-200", "d", []⟩] {"200"}).2 ⟨some "VG-200", "d", []⟩

/-! ## Directory-listing lemmas -/

theorem toLower_eq_dot {a : Char} (h : a.toLower = '.') : a = '.' := by
  unfold Char.toLower at h
  simp only [] at h
  by_cases hc : a.toNat ≥ 65 ∧ a.toNat ≤ 90
  · exfalso
    rw [if_pos hc] at h
    have hv : (a.toNat + 32).isValidChar := Or.inl (by omega)
    rw [Char.ofNat, dif_pos hv] at h
    have h1 := congrArg Char.toNat h
    have hn : (Char.ofNatAux (a.toNat + 32) hv).toNat = a.toNat + 32 := rfl
    have h2 : ('.' : Char).toNat = 46 := by decide
    omega
  · rwa [if_neg hc] at h

theorem ne_dot_of_toLower {b x : Char} (h : b.toLower = x) (hx : x ≠ '.') :
    b ≠ '.' := by
  intro hb
  subst hb
  exact hx (h.symm.trans (show ('.' : Char).toLower = '.' from by decide))

theorem py_splitext_root_of_hasPdfSuffix {l : List Char} (h : hasPdfSuffix l = true) :
    py_splitext_root l =
      if (l.take (l.length - 4)).all (fun c => c == '.') then l
      else l.take (l.length - 4) := by
  have hsuf : ['.', 'p', 'd', 'f'] <:+ l.map Char.toLower :=
    List.isSuffixOf_iff_suffix.mp h
  obtain ⟨t, ht⟩ := hsuf
  obtain ⟨l₀, l₁, rfl, hmap₀, hmap₁⟩ := List.map_eq_append_iff.mp ht.symm
  have hlen : l₁.length = 4 := by
    have := congrArg List.length hmap₁
    simpa using this
  obtain ⟨a, b, c, d, rfl⟩ : ∃ a b c d, l₁ = [a, b, c, d] := by
    match l₁, hlen with
    | [a, b, c, d], _ => exact ⟨a, b, c, d, rfl⟩
  simp only [List.map_cons, List.map_nil, List.cons.injEq, and_true] at hmap₁
  obtain ⟨ha, hb, hc, hd⟩ := hmap₁
  have ha' : a = '.' := toLower_eq_dot ha
  subst ha'
  have hb' : b ≠ '.' := ne_dot_of_toLower hb (by decide)
  have hc' : c ≠ '.' := ne_dot_of_toLower hc (by decide)
  have hd' : d ≠ '.' := ne_dot_of_toLower hd (by decide)
  have hdot : '.' ∈ l₀ ++ ['.', b, c, d] := by simp
  have hrev : (l₀ ++ ['.', b, c, d]).reverse = d :: c :: b :: '.' :: l₀.reverse := by
    simp
  have hfind : (l₀ ++ ['.', b, c, d]).reverse.findIdx (· == '.') = 3 := by
    rw [hrev]
    simp [List.findIdx_cons, beq_eq_false_iff_ne.mpr hd', beq_eq_false_iff_ne.mpr hc',
      beq_eq_false_iff_ne.mpr hb']
  have hlength : (l₀ ++ ['.', b, c, d]).length = l₀.length + 4 := by simp
  have hidx : (l₀ ++ ['.', b, c, d]).length - 1 -
      (l₀ ++ ['.', b, c, d]).reverse.findIdx (· == '.') = l₀.length := by
    rw [hfind, hlength]
    omega
  have htake : (l₀ ++ ['.', b, c, d]).take (l₀.length) = l₀ := List.take_left l₀ _
  have htake4 : (l₀ ++ ['.', b, c, d]).take ((l₀ ++ ['.', b, c, d]).length - 4) = l₀ := by
    rw [hlength]
    simp only [Nat.add_sub_cancel]
    exact htake
  rw [py_splitext_root, if_pos hdot]
  simp only [hidx, htake, htake4]
  by_cases hall : l₀.all (fun c => c == '.') = true
  · rw [if_pos hall]
    have : l₀.any (fun c => !(c == '.')) = false := by
      rw [List.any_eq_false]
      intro x hx
      simp [List.all_eq_true.mp hall x hx]
    rw [this]
    simp
  · rw [if_neg hall]
    have : l₀.any (fun c => !(c == '.')) = true := by
      rw [List.any_eq_true]
      rw [List.all_eq_true] at hall
      push_neg at hall
      obtain ⟨x, hx, hxe⟩ := hall
      exact ⟨x, hx, by simp only [Bool.not_eq_true']; exact Bool.eq_false_iff.mpr hxe⟩
    rw [this]
    simp

/-- **C8 (counterexample).** The claim "each emitted name has the
case-insensitive `.pdf` suffix removed" fails on the regular file named
exactly `.pdf`: `os.path.splitext` treats the leading dot as part of the
root, so the listing emits `.pdf` unchanged instead of the empty string. -/
theorem C8_dotfile_counterexample :
    get_pdf_file_list [⟨".pdf", true⟩] = [".pdf"] ∧
      get_pdf_file_list [⟨".pdf", true⟩] ≠ [""] := by decide

/-- **C8 (amended).** `get_pdf_file_list` emits, in listing order, exactly
the regular-file names that case-insensitively end in `.pdf`, excluding
non-file entries; each is emitted with that suffix removed, except that a
name whose characters before the trailing `.pdf` are all dots (such as
`.pdf` or `..pdf`) is emitted unchanged, per `os.path.splitext`. -/
theorem C8_list_candidates_amended :
    ∀ entries : List DirEntry,
      get_pdf_file_list entries =
        (entries.filter fun e => e.isFile && hasPdfSuffix e.name.data).map
          fun e =>
            if (e.name.data.take (e.name.data.length - 4)).all (fun c => c == '.')
            then e.name
            else String.mk (e.name.data.take (e.name.data.length - 4)) := by
  intro entries
  rw [get_pdf_file_list]
  apply List.map_congr_left
  intro e he
  have hpdf : hasPdfSuffix e.name.data = true :=
    (Bool.and_eq_true _ _ |>.mp (List.mem_filter.mp he).2).2
  rw [py_splitext_root_of_hasPdfSuffix hpdf]
  by_cases hall :
      (e.name.data.take (e.name.data.length - 4)).all (fun c => c == '.') = true
  · rw [if_pos hall, if_pos hall]
  · rw [if_neg hall, if_neg hall]

/-! ## Missing-report and orchestration theorems -/

/-- **C1 (code bug).** The missing-report guard of the source is inverted:
for the unprefixed identifier `200` with BOM key set `{VG-200}`, the spec
rule finds the `VG-`-prefixed form and reports nothing missing, but the
code never consults the prefixed form for an unprefixed identifier and
reports `200` missing. -/
theorem C1_missing_guard_divergence :
    compute_missing ["200"] ({"VG-200"} : Finset String) = ["200"] ∧
      compute_missing_spec ["200"] ({"VG-200"} : Finset String) = [] := ⟨rfl, rfl⟩

/-- **C2 (code bug at the missing list).** On the round-trip scenario the
rows keyed `100` and `VG-200` are kept and `300` is dropped as claimed, but
the missing-identifier list is `[200]`, not empty: the identifier `200` is
matched fileward by the keep-set yet the missing report never checks its
`VG-`-prefixed form against the BOM keys. -/
theorem C2_round_trip_scenario :
    filter_bom_with_pdf_list ["VG-100", "200"]
        [⟨some "100", "d1", []⟩, ⟨some "VG-200", "d2", []⟩, ⟨some "300", "d3", []⟩] =
      ⟨true, ["200"], true, [(some "100", "d1"), (some "VG-200", "d2")],
        some ((2 : ℚ) / (3 : ℚ) * 100)⟩ := by
  rfl

theorem run_eq_of_nonempty (pdf_files : List String) (rows : List BomRow)
    (h : pdf_files ≠ []) (h2 : rows ≠ []) :
    filter_bom_with_pdf_list pdf_files rows =
      { success := true,
        missing := compute_missing pdf_files ((rows.map rowKey).toFinset),
        outputWritten := true,
        output := (filterRows (build_keep_set pdf_files) (drop_duplicates rows)).map
          fun r => (r.partNo, r.description),
        percentage :=
          some (((filterRows (build_keep_set pdf_files)
              (drop_duplicates rows)).length : ℚ) / (rows.length : ℚ) * 100) } := by
  have h1 : pdf_files.isEmpty = false := by
    cases pdf_files
    · exact absurd rfl h
    · rfl
  have h2' : ¬rows.length = 0 := by
    cases rows
    · exact absurd rfl h2
    · simp
  simp [filter_bom_with_pdf_list, h1, h2']

theorem run_eq_of_no_rows (pdf_files : List String) (h : pdf_files ≠ []) :
    filter_bom_with_pdf_list pdf_files [] =
      ⟨false, [], true, [], none⟩ := by
  have h1 : pdf_files.isEmpty = false := by
    cases pdf_files
    · exact absurd rfl h
    · rfl
  simp [filter_bom_with_pdf_list, h1, drop_duplicates, dropDuplicatesAux, filterRows]

/-- **C3 (counterexample).** The orchestration does not guard the summary
division: on a spreadsheet with zero data rows (and a non-empty PDF list)
the run reaches the division, which raises (`percentage = none`), after the
output file was already written, and the handler reports failure. -/
theorem C3_unguarded_division_counterexample :
    (filter_bom_with_pdf_list ["A"] []).outputWritten = true ∧
      (filter_bom_with_pdf_list ["A"] []).percentage = none ∧
      (filter_bom_with_pdf_list ["A"] []).success = false :=
  ⟨rfl, rfl, rfl⟩

/-- **C3 (amended).** With a non-empty identifier list: when the original
row count is positive the run succeeds and the summary percentage equals
`filtered_row_count / original_row_count * 100` (displayed to two
decimals); the division is not guarded, so at zero original rows it raises
`ZeroDivisionError` and the top-level handler returns failure with an empty
missing list — after the output file was written. -/
theorem C3_percentage_amended :
    ∀ (pdf_files : List String) (rows : List BomRow),
      pdf_files ≠ [] →
      (rows ≠ [] →
        (filter_bom_with_pdf_list pdf_files rows).success = true ∧
        (filter_bom_with_pdf_list pdf_files rows).percentage =
          some (((filterRows (build_keep_set pdf_files)
              (drop_duplicates rows)).length : ℚ) / (rows.length : ℚ) * 100)) ∧
      (rows = [] →
        filter_bom_with_pdf_list pdf_files rows = ⟨false, [], true, [], none⟩) := by
  intro pdf_files rows h
  constructor
  · intro h2
    rw [run_eq_of_nonempty pdf_files rows h h2]
    exact ⟨rfl, rfl⟩
  · intro h2
    subst h2
    exact run_eq_of_no_rows pdf_files h

/-- Witness for C3 (amended) on a one-identifier, one-row input. -/
theorem C3_percentage_amended_witness :
    (filter_bom_with_pdf_list ["A"] [⟨some "A", "d", []⟩]).success = true ∧
      (filter_bom_with_pdf_list ["A"] [⟨some "A", "d", []⟩]).percentage =
        some (((filterRows (build_keep_set ["A"])
            (drop_duplicates [⟨some "A", "d", []⟩])).length : ℚ) /
          (([⟨some "A", "d", []⟩] : List BomRow).length : ℚ) * 100) :=
  (C3_percentage_amended ["A"] [⟨some "A", "d", []⟩] (by simp)).1 (by simp)

/-- **C9.** When the identifier enumeration is empty the orchestration
returns failure with an empty missing list and writes no output file. -/
theorem C9_empty_enumeration_fails_fast :
    ∀ rows : List BomRow,
      filter_bom_with_pdf_list [] rows = ⟨false, [], false, [], none⟩ :=
  fun _ => rfl

/-- **C10.** Failure does not imply that no output was written: with the
identifier `VG-100` and a spreadsheet holding only a header (zero data
rows) the `FILTERED_` file is written, then the summary division raises,
and the run returns failure with an empty missing list. -/
theorem C10_output_written_despite_failure :
    (filter_bom_with_pdf_list ["VG-100"] []).success = false ∧
      (filter_bom_with_pdf_list ["VG-100"] []).outputWritten = true ∧
      (filter_bom_with_pdf_list ["VG-100"] []).missing = [] ∧
      (filter_bom_with_pdf_list ["VG-100"] []).percentage = none :=
  ⟨rfl, rfl, rfl, rfl⟩

end BomReconciler
